import Mathlib

/-!
Shallow embedding of the parallel quadruple-root calculator
(src/Para_Q_Root_calc.c) and proofs about its partition, tree-reduction
and driver logic.

The per-element value pow(i, 0.25) is abstracted as an arbitrary
rational-valued function f : ℕ → ℚ; every summation theorem below is
proved for all f, hence in particular for the exact real values of the
fourth roots.  The table of per-thread slots (partial_sums in the C
source) is modelled as a total function ℕ → ℚ read and written at
indices below the thread count m.
-/

open Finset

/-- Start of worker tid's inclusive range, line 32 of the source:
start = tid * (n / m) + 1, with C integer division. -/
def range_start (tid m n : ℕ) : ℕ := tid * (n / m) + 1

/-- End of worker tid's inclusive range, lines 33-38: the last worker's
end is forced to n, otherwise end = (tid + 1) * (n / m). -/
def range_end (tid m n : ℕ) : ℕ := if tid = m - 1 then n else (tid + 1) * (n / m)

/-- The set of indices worker tid iterates over in the phase-1 loop
(for i = start; i <= end; i++), lines 42-44. -/
def workerRange (tid m n : ℕ) : Finset ℕ := Finset.Icc (range_start tid m n) (range_end tid m n)

/-- Phase-1 local sum of worker tid (lines 41-44), with the summand
abstracted as f. -/
def local_sum (f : ℕ → ℚ) (tid m n : ℕ) : ℚ := ∑ i in workerRange tid m n, f i

/-- The shared slot table after phase 1 (line 47): slot tid holds worker
tid's local sum. -/
def sumTable (f : ℕ → ℚ) (m n : ℕ) : ℕ → ℚ := fun tid => local_sum f tid m n

/-- Phase-2 round body of one worker t (lines 70-79): if t is active,
t % (2*step) == 0, and has a partner, t + step < m, it adds the
partner's slot into its own slot; otherwise it leaves the table alone. -/
def updateSlot (m s : ℕ) (σ : ℕ → ℚ) (t : ℕ) : ℕ → ℚ :=
  if t % (2 * s) = 0 ∧ t + s < m then Function.update σ t (σ t + σ (t + s)) else σ

/-- One barrier-delimited reduction round with step value s: each of the
m workers executes its round body exactly once. -/
def roundExec (m s : ℕ) (σ : ℕ → ℚ) : ℕ → ℚ := (List.range m).foldl (updateSlot m s) σ

/-- The table state at the start of round k (0-indexed, step = 2^k):
rounds with steps 2^0, ..., 2^(k-1) have been executed. -/
def stateAfter (m : ℕ) (σ : ℕ → ℚ) : ℕ → ℕ → ℚ
  | 0 => σ
  | k + 1 => roundExec m (2 ^ k) (stateAfter m σ k)

/-- The phase-2 while loop (lines 67-86): while step < m, run a round
and double the step.  The first argument is fuel bounding the number of
iterations; the loop from step = 1 needs only ceil(log2 m) ≤ m of it. -/
def reduceAux (m : ℕ) : ℕ → ℕ → (ℕ → ℚ) → (ℕ → ℚ)
  | 0, _, σ => σ
  | fuel + 1, s, σ => if s < m then reduceAux m fuel (2 * s) (roundExec m s σ) else σ

/-- The whole phase-2 reduction: the loop started at step = 1. -/
def reduceRounds (m : ℕ) (σ : ℕ → ℚ) : ℕ → ℚ := reduceAux m m 1 σ

/-- Number of iterations the while loop performs from step value s. -/
def loopRoundsAux (m : ℕ) : ℕ → ℕ → ℕ
  | 0, _ => 0
  | fuel + 1, s => if s < m then loopRoundsAux m fuel (2 * s) + 1 else 0

/-- Number of reduction rounds executed by the loop started at step = 1. -/
def loopRounds (m : ℕ) : ℕ := loopRoundsAux m m 1

/-- The computation core: phase 1 fills the table, phase 2 reduces it,
and the result is read from slot 0 (compute_quadruple_roots, lines 23-96,
plus the driver reading partial_sums[0]). -/
def compute (f : ℕ → ℚ) (m n : ℕ) : ℚ := reduceRounds m (sumTable f m n) 0

/-- Write targets of a round with step s: active workers with a valid
partner (they update their own slot), restricted to existing workers. -/
def writeSet (m s : ℕ) : Finset ℕ :=
  (Finset.range m).filter (fun t => t % (2 * s) = 0 ∧ t + s < m)

/-- Slots read from other workers in a round with step s: partner slot
t + s for each write target t. -/
def readSet (m s : ℕ) : Finset ℕ := (writeSet m s).image (fun t => t + s)

/-- The three error conditions the driver distinguishes (spec §7). -/
inductive DriverError where
  | invalidArgument : DriverError
  | allocationFailure : DriverError
  | workerLaunchFailure : DriverError
  deriving DecidableEq

/-- Environment oracle for the driver: which of the three mallocs
succeed and which worker creations succeed. -/
structure AllocOracle where
  tableOk : Bool
  threadsOk : Bool
  threadArgsOk : Bool
  createOk : ℕ → Bool

/-- Observable resource events of one driver run (main, lines 98-166):
which allocations happened, which were released, whether the barrier was
initialized/destroyed, and how many workers were created and joined. -/
structure DriverTrace where
  error : Option DriverError
  tableAllocated : Bool
  tableFreed : Bool
  threadsArrAllocated : Bool
  threadsArrFreed : Bool
  argsArrAllocated : Bool
  argsArrFreed : Bool
  barrierInitialized : Bool
  barrierDestroyed : Bool
  threadsCreated : ℕ
  threadsJoined : ℕ
  deriving DecidableEq

/-- Index of the first worker whose creation fails, if any. -/
def firstFailure (ok : ℕ → Bool) (m : ℕ) : Option ℕ :=
  (List.range m).find? (fun i => !(ok i))

/-- The driver control flow of main (lines 110-165), transcribed branch
by branch: validation, table malloc, barrier init, the two mallocs for
thread handles and args, the creation loop with its failure path, and
the success path. -/
def runMain (m n : ℤ) (o : AllocOracle) : DriverTrace :=
  if m ≤ 0 ∨ n ≤ 0 then
    { error := some DriverError.invalidArgument, tableAllocated := false, tableFreed := false,
      threadsArrAllocated := false, threadsArrFreed := false, argsArrAllocated := false,
      argsArrFreed := false, barrierInitialized := false, barrierDestroyed := false,
      threadsCreated := 0, threadsJoined := 0 }
  else if !o.tableOk then
    { error := some DriverError.allocationFailure, tableAllocated := false, tableFreed := false,
      threadsArrAllocated := false, threadsArrFreed := false, argsArrAllocated := false,
      argsArrFreed := false, barrierInitialized := false, barrierDestroyed := false,
      threadsCreated := 0, threadsJoined := 0 }
  else if !(o.threadsOk && o.threadArgsOk) then
    { error := some DriverError.allocationFailure, tableAllocated := true, tableFreed := true,
      threadsArrAllocated := o.threadsOk, threadsArrFreed := false,
      argsArrAllocated := o.threadArgsOk, argsArrFreed := false,
      barrierInitialized := true, barrierDestroyed := false,
      threadsCreated := 0, threadsJoined := 0 }
  else
    match firstFailure o.createOk m.toNat with
    | some i =>
      { error := some DriverError.workerLaunchFailure, tableAllocated := true, tableFreed := true,
        threadsArrAllocated := true, threadsArrFreed := true, argsArrAllocated := true,
        argsArrFreed := true, barrierInitialized := true, barrierDestroyed := false,
        threadsCreated := i, threadsJoined := 0 }
    | none =>
      { error := none, tableAllocated := true, tableFreed := true,
        threadsArrAllocated := true, threadsArrFreed := true, argsArrAllocated := true,
        argsArrFreed := true, barrierInitialized := true, barrierDestroyed := true,
        threadsCreated := m.toNat, threadsJoined := m.toNat }

/-! ### Partition lemmas -/

lemma one_le_range_start (tid m n : ℕ) : 1 ≤ range_start tid m n :=
  Nat.le_add_left 1 _

lemma range_end_le (t m n : ℕ) (ht : t < m) : range_end t m n ≤ n := by
  unfold range_end
  split
  · exact le_rfl
  · calc (t + 1) * (n / m) ≤ m * (n / m) := Nat.mul_le_mul_right _ (by omega)
      _ ≤ n := by
        rw [Nat.mul_comm]
        exact Nat.div_mul_le_self n m

lemma range_end_lt_range_start (m n t1 t2 : ℕ) (h2 : t2 < m) (h12 : t1 < t2) :
    range_end t1 m n < range_start t2 m n := by
  have h1 : t1 ≠ m - 1 := by omega
  unfold range_end range_start
  rw [if_neg h1]
  have : (t1 + 1) * (n / m) ≤ t2 * (n / m) := Nat.mul_le_mul_right _ (by omega)
  omega

lemma workerRange_disjoint_of_lt (m n t1 t2 : ℕ) (h2 : t2 < m) (h12 : t1 < t2) :
    Disjoint (workerRange t1 m n) (workerRange t2 m n) := by
  have hlt := range_end_lt_range_start m n t1 t2 h2 h12
  rw [Finset.disjoint_left]
  intro a ha1 ha2
  rw [workerRange, Finset.mem_Icc] at ha1 ha2
  omega

lemma workerRange_disjoint (m n t1 t2 : ℕ) (h1 : t1 < m) (h2 : t2 < m) (hne : t1 ≠ t2) :
    Disjoint (workerRange t1 m n) (workerRange t2 m n) := by
  rcases Nat.lt_or_ge t1 t2 with h | h
  · exact workerRange_disjoint_of_lt m n t1 t2 h2 h
  · exact (workerRange_disjoint_of_lt m n t2 t1 h1 (by omega)).symm

lemma mem_workerRange_bounds (m n t i : ℕ) (ht : t < m) (hi : i ∈ workerRange t m n) :
    1 ≤ i ∧ i ≤ n := by
  rw [workerRange, Finset.mem_Icc] at hi
  have h1 := one_le_range_start t m n
  have h2 := range_end_le t m n ht
  omega

lemma div_mul_sandwich (q i : ℕ) (hq : 0 < q) (h1 : 1 ≤ i) :
    (i - 1) / q * q + 1 ≤ i ∧ i ≤ ((i - 1) / q + 1) * q := by
  have h2 : (i - 1) / q * q ≤ i - 1 := Nat.div_mul_le_self _ _
  have h3 : i - 1 < ((i - 1) / q + 1) * q := by
    have hdm := Nat.div_add_mod (i - 1) q
    have hml : (i - 1) % q < q := Nat.mod_lt _ hq
    calc i - 1 = q * ((i - 1) / q) + (i - 1) % q := hdm.symm
      _ < q * ((i - 1) / q) + q := Nat.add_lt_add_left hml _
      _ = ((i - 1) / q + 1) * q := by ring
  constructor
  · have h4 : (i - 1) / q * q + 1 ≤ i - 1 + 1 := Nat.add_le_add_right h2 1
    rwa [Nat.sub_add_cancel h1] at h4
  · have h4 : i - 1 + 1 ≤ ((i - 1) / q + 1) * q := Nat.succ_le_of_lt h3
    rwa [Nat.sub_add_cancel h1] at h4

lemma exists_workerRange_mem (m n i : ℕ) (hm : 1 ≤ m) (h1 : 1 ≤ i) (hn : i ≤ n) :
    ∃ t, t < m ∧ i ∈ workerRange t m n := by
  by_cases hq : n / m = 0
  · refine ⟨m - 1, by omega, ?_⟩
    rw [workerRange, Finset.mem_Icc, range_start, range_end, if_pos rfl, hq]
    omega
  · have hq0 : 0 < n / m := Nat.pos_of_ne_zero hq
    by_cases hbig : m - 1 ≤ (i - 1) / (n / m)
    · refine ⟨m - 1, by omega, ?_⟩
      rw [workerRange, Finset.mem_Icc, range_start, range_end, if_pos rfl]
      refine ⟨?_, hn⟩
      have hmul : (m - 1) * (n / m) ≤ (i - 1) / (n / m) * (n / m) :=
        Nat.mul_le_mul_right _ hbig
      have hdl : (i - 1) / (n / m) * (n / m) ≤ i - 1 := Nat.div_mul_le_self _ _
      have h4 : (m - 1) * (n / m) + 1 ≤ i - 1 + 1 :=
        Nat.add_le_add_right (le_trans hmul hdl) 1
      rwa [Nat.sub_add_cancel h1] at h4
    · have hlt : (i - 1) / (n / m) < m - 1 := Nat.lt_of_not_le hbig
      refine ⟨(i - 1) / (n / m), lt_of_lt_of_le hlt (Nat.sub_le m 1), ?_⟩
      rw [workerRange, Finset.mem_Icc, range_start, range_end, if_neg (Nat.ne_of_lt hlt)]
      exact div_mul_sandwich (n / m) i hq0 h1

lemma workerRange_biUnion (m n : ℕ) (hm : 1 ≤ m) :
    (Finset.range m).biUnion (fun t => workerRange t m n) = Finset.Icc 1 n := by
  ext i
  rw [Finset.mem_biUnion, Finset.mem_Icc]
  constructor
  · rintro ⟨t, ht, hi⟩
    exact mem_workerRange_bounds m n t i (Finset.mem_range.mp ht) hi
  · rintro ⟨h1, hn⟩
    obtain ⟨t, ht, hi⟩ := exists_workerRange_mem m n i hm h1 hn
    exact ⟨t, Finset.mem_range.mpr ht, hi⟩

lemma sum_local_sum (f : ℕ → ℚ) (m n : ℕ) (hm : 1 ≤ m) :
    ∑ t in Finset.range m, local_sum f t m n = ∑ i in Finset.Icc 1 n, f i := by
  have hdisj : Set.PairwiseDisjoint ↑(Finset.range m) (fun t => workerRange t m n) := by
    intro a ha b hb hab
    exact workerRange_disjoint m n a b
      (Finset.mem_range.mp (Finset.mem_coe.mp ha))
      (Finset.mem_range.mp (Finset.mem_coe.mp hb)) hab
  rw [← workerRange_biUnion m n hm, Finset.sum_biUnion hdisj]
  rfl

/-! ### Reduction-round lemmas -/

lemma foldl_updateSlot_skip (m s j : ℕ) :
    ∀ (L : List ℕ) (σ : ℕ → ℚ), (∀ t ∈ L, t ≠ j ∨ ¬(t % (2 * s) = 0 ∧ t + s < m)) →
      L.foldl (updateSlot m s) σ j = σ j := by
  intro L
  induction L with
  | nil => intro σ _; rfl
  | cons t L ih =>
    intro σ h
    have ht := h t (by simp)
    have hL : ∀ u ∈ L, u ≠ j ∨ ¬(u % (2 * s) = 0 ∧ u + s < m) := fun u hu => h u (by simp [hu])
    rw [List.foldl_cons, ih _ hL]
    by_cases hc : t % (2 * s) = 0 ∧ t + s < m
    · have htj : t ≠ j := by tauto
      rw [updateSlot, if_pos hc]
      exact Function.update_noteq (Ne.symm htj) _ _
    · rw [updateSlot, if_neg hc]

lemma foldl_updateSlot_not_mem (m s j : ℕ) (L : List ℕ) (σ : ℕ → ℚ) (hj : j ∉ L) :
    L.foldl (updateSlot m s) σ j = σ j :=
  foldl_updateSlot_skip m s j L σ (fun _ ht => Or.inl (fun he => hj (he ▸ ht)))

/-- The net effect of one round on slot j: active workers with a partner
read only slots that no one writes in the round, so the concurrent round
is the pointwise simultaneous update. -/
lemma roundExec_eq (m s : ℕ) (σ : ℕ → ℚ) (j : ℕ) :
    roundExec m s σ j = if j % (2 * s) = 0 ∧ j + s < m then σ j + σ (j + s) else σ j := by
  by_cases hc : j % (2 * s) = 0 ∧ j + s < m
  · rw [if_pos hc]
    have hjm : j < m := lt_of_le_of_lt (Nat.le_add_right j s) hc.2
    have hdecomp : List.range m =
        (List.range j ++ [j]) ++ (List.range (m - (j + 1))).map (fun a => j + 1 + a) := by
      rw [← List.range_succ, ← List.range_add]
      congr 1
      omega
    rw [roundExec, hdecomp, List.foldl_append, List.foldl_append]
    have h1j : (List.range j).foldl (updateSlot m s) σ j = σ j :=
      foldl_updateSlot_not_mem m s j _ σ (by simp)
    have h1js : (List.range j).foldl (updateSlot m s) σ (j + s) =
        σ (j + s) :=
      foldl_updateSlot_not_mem m s (j + s) _ σ (by simp)
    have hmid : List.foldl (updateSlot m s) ((List.range j).foldl (updateSlot m s) σ) [j] =
        Function.update ((List.range j).foldl (updateSlot m s) σ) j (σ j + σ (j + s)) := by
      rw [List.foldl_cons, List.foldl_nil, updateSlot, if_pos hc, h1j, h1js]
    rw [hmid]
    rw [foldl_updateSlot_skip m s j _ _ (by
      intro t ht
      left
      rcases List.mem_map.mp ht with ⟨a, _, rfl⟩
      omega)]
    exact Function.update_same _ _ _
  · rw [if_neg hc]
    exact foldl_updateSlot_skip m s j _ σ (fun t ht => by
      by_cases htj : t = j
      · exact Or.inr (htj ▸ hc)
      · exact Or.inl htj)

/-- Tree-reduction invariant: at the start of round k, every slot j with
j a multiple of 2^k holds the sum of the original slots of the block of
workers [j, j + 2^k) clipped to m. -/
lemma stateAfter_spec (m : ℕ) (σ : ℕ → ℚ) :
    ∀ k j, j < m → j % 2 ^ k = 0 →
      stateAfter m σ k j = ∑ i in Finset.Ico j (min (j + 2 ^ k) m), σ i := by
  intro k
  induction k with
  | zero =>
    intro j hj _
    have hmin : min (j + 2 ^ 0) m = j + 1 := by
      rw [pow_zero]
      omega
    rw [hmin, stateAfter]
    rw [Nat.Ico_succ_singleton, Finset.sum_singleton]
  | succ k ih =>
    intro j hj hmod
    have hdvd1 : 2 ^ (k + 1) ∣ j := Nat.dvd_of_mod_eq_zero hmod
    have hdvdk : 2 ^ k ∣ j := dvd_trans (pow_dvd_pow 2 (Nat.le_succ k)) hdvd1
    have h2k : j % 2 ^ k = 0 := Nat.mod_eq_zero_of_dvd hdvdk
    show roundExec m (2 ^ k) (stateAfter m σ k) j = _
    rw [roundExec_eq]
    have hpow : 2 * 2 ^ k = 2 ^ (k + 1) := by ring
    by_cases hp : j + 2 ^ k < m
    · rw [if_pos ⟨by rw [hpow]; exact hmod, hp⟩]
      have hmod2 : (j + 2 ^ k) % 2 ^ k = 0 := by
        simp [Nat.add_mod, h2k, Nat.mod_self]
      rw [ih j hj h2k, ih (j + 2 ^ k) hp hmod2]
      have e1 : min (j + 2 ^ k) m = j + 2 ^ k := min_eq_left (le_of_lt hp)
      have e2 : j + 2 ^ k + 2 ^ k = j + 2 ^ (k + 1) := by rw [pow_succ]; ring
      rw [e1, e2]
      have hble : (2:ℕ) ^ k ≤ 2 ^ (k + 1) := Nat.pow_le_pow_right (by norm_num) (Nat.le_succ k)
      exact Finset.sum_Ico_consecutive σ (Nat.le_add_right j (2 ^ k))
        (le_min (by omega) (le_of_lt hp))
    · rw [if_neg (fun hcon => hp hcon.2)]
      rw [ih j hj h2k]
      have hmle : m ≤ j + 2 ^ k := Nat.le_of_not_lt hp
      have hble : (2:ℕ) ^ k ≤ 2 ^ (k + 1) := Nat.pow_le_pow_right (by norm_num) (Nat.le_succ k)
      have e1 : min (j + 2 ^ k) m = m := min_eq_right hmle
      have e2 : min (j + 2 ^ (k + 1)) m = m := min_eq_right (by omega)
      rw [e1, e2]

/-! ### Loop characterization: round count and final slot 0 -/

lemma clog_two_le_self (m : ℕ) : Nat.clog 2 m ≤ m :=
  (Nat.le_pow_iff_clog_le (by norm_num)).mp (le_of_lt (Nat.lt_two_pow m))

lemma reduceAux_spec (m : ℕ) (σ : ℕ → ℚ) :
    ∀ fuel k, Nat.clog 2 m ≤ k + fuel →
      reduceAux m fuel (2 ^ k) (stateAfter m σ k) = stateAfter m σ (max k (Nat.clog 2 m)) := by
  intro fuel
  induction fuel with
  | zero =>
    intro k hk
    rw [max_eq_left (by omega)]
    rfl
  | succ fuel ih =>
    intro k hk
    show (if 2 ^ k < m then
        reduceAux m fuel (2 * 2 ^ k) (roundExec m (2 ^ k) (stateAfter m σ k))
      else stateAfter m σ k) = _
    by_cases h : 2 ^ k < m
    · rw [if_pos h]
      have hklt : k < Nat.clog 2 m := (Nat.pow_lt_iff_lt_clog (by norm_num)).mp h
      have hpow : 2 * 2 ^ k = 2 ^ (k + 1) := by ring
      have hstep : roundExec m (2 ^ k) (stateAfter m σ k) = stateAfter m σ (k + 1) := rfl
      rw [hpow, hstep, ih (k + 1) (by omega)]
      rw [max_eq_right (by omega), max_eq_right (by omega)]
    · rw [if_neg h]
      have hck : Nat.clog 2 m ≤ k := (Nat.le_pow_iff_clog_le (by norm_num)).mp (Nat.le_of_not_lt h)
      rw [max_eq_left hck]

lemma reduceRounds_eq_stateAfter (m : ℕ) (σ : ℕ → ℚ) :
    reduceRounds m σ = stateAfter m σ (Nat.clog 2 m) := by
  have h := reduceAux_spec m σ m 0 (by simpa using clog_two_le_self m)
  rw [pow_zero] at h
  rw [max_eq_right (Nat.zero_le _)] at h
  exact h

lemma reduceRounds_slot_zero (m : ℕ) (σ : ℕ → ℚ) (hm : 1 ≤ m) :
    reduceRounds m σ 0 = ∑ i in Finset.range m, σ i := by
  rw [reduceRounds_eq_stateAfter]
  rw [stateAfter_spec m σ (Nat.clog 2 m) 0 (by omega) (Nat.zero_mod _)]
  have hmin : min (0 + 2 ^ Nat.clog 2 m) m = m :=
    min_eq_right (by simpa using Nat.le_pow_clog (by norm_num) m)
  rw [hmin, Finset.range_eq_Ico]

lemma loopRoundsAux_spec (m : ℕ) :
    ∀ fuel k, Nat.clog 2 m ≤ k + fuel →
      loopRoundsAux m fuel (2 ^ k) = max k (Nat.clog 2 m) - k := by
  intro fuel
  induction fuel with
  | zero =>
    intro k hk
    rw [max_eq_left (by omega)]
    simp [loopRoundsAux]
  | succ fuel ih =>
    intro k hk
    show (if 2 ^ k < m then loopRoundsAux m fuel (2 * 2 ^ k) + 1 else 0) = _
    by_cases h : 2 ^ k < m
    · rw [if_pos h]
      have hklt : k < Nat.clog 2 m := (Nat.pow_lt_iff_lt_clog (by norm_num)).mp h
      have hpow : 2 * 2 ^ k = 2 ^ (k + 1) := by ring
      rw [hpow, ih (k + 1) (by omega)]
      rw [max_eq_right (by omega), max_eq_right (by omega)]
      omega
    · rw [if_neg h]
      have hck : Nat.clog 2 m ≤ k := (Nat.le_pow_iff_clog_le (by norm_num)).mp (Nat.le_of_not_lt h)
      rw [max_eq_left hck]
      omega

lemma loopRounds_eq_clog (m : ℕ) : loopRounds m = Nat.clog 2 m := by
  have h := loopRoundsAux_spec m m 0 (by simpa using clog_two_le_self m)
  rw [pow_zero] at h
  rw [max_eq_right (Nat.zero_le _)] at h
  simpa [loopRounds] using h

lemma loopRoundsAux_stop (m fuel s : ℕ) (hs : m ≤ s) : loopRoundsAux m fuel s = 0 := by
  cases fuel with
  | zero => rfl
  | succ fuel => simp [loopRoundsAux, Nat.not_lt.mpr hs]

lemma compute_eq_sum (f : ℕ → ℚ) (m n : ℕ) (hm : 1 ≤ m) :
    compute f m n = ∑ i in Finset.Icc 1 n, f i := by
  rw [compute, reduceRounds_slot_zero m _ hm]
  exact sum_local_sum f m n hm

/-! ### Round-interference lemmas -/

lemma mod_add_s (s t : ℕ) (hs : 1 ≤ s) (ht : t % (2 * s) = 0) : (t + s) % (2 * s) = s := by
  obtain ⟨a, rfl⟩ := Nat.dvd_of_mod_eq_zero ht
  have h1 : 2 * s * a + s = s + a * (2 * s) := by ring
  rw [h1, Nat.add_mul_mod_self_right]
  exact Nat.mod_eq_of_lt (by omega)

lemma mem_writeSet_iff (m s t : ℕ) :
    t ∈ writeSet m s ↔ t % (2 * s) = 0 ∧ t + s < m := by
  rw [writeSet, Finset.mem_filter, Finset.mem_range]
  constructor
  · exact fun h => h.2
  · exact fun h => ⟨by omega, h⟩

lemma writeSet_readSet_disjoint (m s : ℕ) (hs : 1 ≤ s) :
    Disjoint (writeSet m s) (readSet m s) := by
  rw [Finset.disjoint_left]
  intro u huW huR
  have h0 : u % (2 * s) = 0 := ((mem_writeSet_iff m s u).mp huW).1
  rw [readSet, Finset.mem_image] at huR
  obtain ⟨t, htW, rfl⟩ := huR
  have ht0 : t % (2 * s) = 0 := ((mem_writeSet_iff m s t).mp htW).1
  have hts : (t + s) % (2 * s) = s := mod_add_s s t hs ht0
  omega

/-! ### Claim theorems -/

/-- Claim C1: for every thread count m ≥ 1 and upper bound n ≥ 1 the
computation returns the sequential reference sum of the per-element
values over [1, n]; equivalently the phase-1 slots sum to that total and
after phase 2 slot 0 holds it.  Proved exactly, for every assignment f
of values to the indices, hence in particular for the fourth roots. -/
theorem c1_compute_equals_sequential_sum (f : ℕ → ℚ) (m n : ℕ) (hm : 1 ≤ m) (_hn : 1 ≤ n) :
    compute f m n = ∑ i in Finset.Icc 1 n, f i ∧
    ∑ t in Finset.range m, local_sum f t m n = ∑ i in Finset.Icc 1 n, f i :=
  ⟨compute_eq_sum f m n hm, sum_local_sum f m n hm⟩

theorem c1_witness :
    (1 ≤ 2) ∧ (1 ≤ 5) ∧
    (compute (fun i => (i : ℚ)) 2 5 = ∑ i in Finset.Icc (1 : ℕ) 5, (i : ℚ) ∧
      ∑ t in Finset.range 2, local_sum (fun i => (i : ℚ)) t 2 5 =
        ∑ i in Finset.Icc (1 : ℕ) 5, (i : ℚ)) :=
  ⟨by decide, by decide,
    c1_compute_equals_sequential_sum (fun i => (i : ℚ)) 2 5 (by decide) (by decide)⟩

/-- Claim C2: at the start of reduction round k (step = 2^k) every slot
j with j mod 2^k = 0 holds the sum of the phase-1 partial sums of the
worker block [j, j + 2^k) clipped to m, and at loop termination slot 0
holds the grand total of all m phase-1 partial sums. -/
theorem c2_reduction_invariant_and_grand_total (m k j : ℕ) (σ : ℕ → ℚ) (hm : 1 ≤ m)
    (hj : j < m) (hdiv : j % 2 ^ k = 0) :
    stateAfter m σ k j = ∑ i in Finset.Ico j (min (j + 2 ^ k) m), σ i ∧
    reduceRounds m σ 0 = ∑ i in Finset.range m, σ i :=
  ⟨stateAfter_spec m σ k j hj hdiv, reduceRounds_slot_zero m σ hm⟩

theorem c2_witness :
    (1 ≤ 3) ∧ (2 < 3) ∧ (2 % 2 ^ 1 = 0) ∧
    (stateAfter 3 (fun t => (t : ℚ) + 1) 1 2 =
        ∑ i in Finset.Ico (2 : ℕ) (min (2 + 2 ^ 1) 3), ((i : ℚ) + 1) ∧
      reduceRounds 3 (fun t => (t : ℚ) + 1) 0 = ∑ i in Finset.range 3, ((i : ℚ) + 1)) :=
  ⟨by decide, by decide, by decide,
    c2_reduction_invariant_and_grand_total 3 1 2 (fun t => (t : ℚ) + 1)
      (by decide) (by decide) (by decide)⟩

/-- Claim C3: the partitioner assigns start = worker_id * (n / m) + 1
and end = (worker_id + 1) * (n / m) except the last worker whose end is
n; the m ranges are pairwise disjoint and their union is exactly [1, n]. -/
theorem c3_partition_exact (m n t1 t2 : ℕ) (hm : 1 ≤ m) (_hn : 1 ≤ n) (h1 : t1 < m)
    (h2 : t2 < m) (hne : t1 ≠ t2) :
    range_start t1 m n = t1 * (n / m) + 1 ∧
    (t1 ≠ m - 1 → range_end t1 m n = (t1 + 1) * (n / m)) ∧
    range_end (m - 1) m n = n ∧
    Disjoint (workerRange t1 m n) (workerRange t2 m n) ∧
    (Finset.range m).biUnion (fun t => workerRange t m n) = Finset.Icc 1 n :=
  ⟨rfl, fun h => by rw [range_end, if_neg h], by rw [range_end, if_pos rfl],
    workerRange_disjoint m n t1 t2 h1 h2 hne, workerRange_biUnion m n hm⟩

theorem c3_witness :
    (1 ≤ 3) ∧ (1 ≤ 7) ∧ (0 < 3) ∧ (2 < 3) ∧ ((0 : ℕ) ≠ 2) ∧
    (range_start 0 3 7 = 0 * (7 / 3) + 1 ∧
      ((0 : ℕ) ≠ 3 - 1 → range_end 0 3 7 = (0 + 1) * (7 / 3)) ∧
      range_end (3 - 1) 3 7 = 7 ∧
      Disjoint (workerRange 0 3 7) (workerRange 2 3 7) ∧
      (Finset.range 3).biUnion (fun t => workerRange t 3 7) = Finset.Icc 1 7) :=
  ⟨by decide, by decide, by decide, by decide, by decide,
    c3_partition_exact 3 7 0 2 (by decide) (by decide) (by decide) (by decide) (by decide)⟩

/-- Claim C4 evidence: the driver does NOT release every resource on
failure paths.  With m = 2 and a worker-creation failure for worker 1,
the already-created worker 0 is never joined while the slot table it
uses is freed, and the barrier is never destroyed; with the thread-args
malloc failing after the thread-handle malloc succeeded, the
thread-handle array and the barrier are leaked. -/
theorem c4_driver_leaks_on_failure :
    (runMain 2 10 ⟨true, true, true, fun i => i == 0⟩).error =
        some DriverError.workerLaunchFailure ∧
    (runMain 2 10 ⟨true, true, true, fun i => i == 0⟩).threadsCreated = 1 ∧
    (runMain 2 10 ⟨true, true, true, fun i => i == 0⟩).threadsJoined = 0 ∧
    (runMain 2 10 ⟨true, true, true, fun i => i == 0⟩).tableFreed = true ∧
    (runMain 2 10 ⟨true, true, true, fun i => i == 0⟩).barrierInitialized = true ∧
    (runMain 2 10 ⟨true, true, true, fun i => i == 0⟩).barrierDestroyed = false ∧
    (runMain 2 10 ⟨true, true, false, fun _ => true⟩).error =
        some DriverError.allocationFailure ∧
    (runMain 2 10 ⟨true, true, false, fun _ => true⟩).threadsArrAllocated = true ∧
    (runMain 2 10 ⟨true, true, false, fun _ => true⟩).threadsArrFreed = false ∧
    (runMain 2 10 ⟨true, true, false, fun _ => true⟩).barrierInitialized = true ∧
    (runMain 2 10 ⟨true, true, false, fun _ => true⟩).barrierDestroyed = false := by
  decide

/-- Claim C5: the driver validates thread_count > 0 and upper_bound > 0
before doing anything else: on a non-positive argument it reports the
invalid-argument error and acquires nothing - no table, no barrier, no
worker, no auxiliary array. -/
theorem c5_validation_first (m n : ℤ) (o : AllocOracle) (h : m ≤ 0 ∨ n ≤ 0) :
    (runMain m n o).error = some DriverError.invalidArgument ∧
    (runMain m n o).tableAllocated = false ∧
    (runMain m n o).barrierInitialized = false ∧
    (runMain m n o).threadsCreated = 0 ∧
    (runMain m n o).threadsArrAllocated = false ∧
    (runMain m n o).argsArrAllocated = false := by
  rw [runMain, if_pos h]
  exact ⟨rfl, rfl, rfl, rfl, rfl, rfl⟩

theorem c5_witness :
    ((0 : ℤ) ≤ 0 ∨ (10 : ℤ) ≤ 0) ∧
    ((runMain 0 10 ⟨true, true, true, fun _ => true⟩).error =
        some DriverError.invalidArgument ∧
      (runMain 0 10 ⟨true, true, true, fun _ => true⟩).tableAllocated = false ∧
      (runMain 0 10 ⟨true, true, true, fun _ => true⟩).barrierInitialized = false ∧
      (runMain 0 10 ⟨true, true, true, fun _ => true⟩).threadsCreated = 0 ∧
      (runMain 0 10 ⟨true, true, true, fun _ => true⟩).threadsArrAllocated = false ∧
      (runMain 0 10 ⟨true, true, true, fun _ => true⟩).argsArrAllocated = false) ∧
    ((runMain 5 (-1) ⟨true, true, true, fun _ => true⟩).error =
        some DriverError.invalidArgument ∧
      (runMain 5 (-1) ⟨true, true, true, fun _ => true⟩).tableAllocated = false ∧
      (runMain 5 (-1) ⟨true, true, true, fun _ => true⟩).barrierInitialized = false ∧
      (runMain 5 (-1) ⟨true, true, true, fun _ => true⟩).threadsCreated = 0 ∧
      (runMain 5 (-1) ⟨true, true, true, fun _ => true⟩).threadsArrAllocated = false ∧
      (runMain 5 (-1) ⟨true, true, true, fun _ => true⟩).argsArrAllocated = false) :=
  ⟨Or.inl (by decide),
    c5_validation_first 0 10 ⟨true, true, true, fun _ => true⟩ (Or.inl (by decide)),
    c5_validation_first 5 (-1) ⟨true, true, true, fun _ => true⟩ (Or.inr (by decide))⟩

/-- Claim C6: when n < m every non-last worker gets an empty range
(start > end), iterates zero times and so contributes exactly 0 to its
slot, and the computation still returns the correct total. -/
theorem c6_empty_ranges_safe (f : ℕ → ℚ) (m n t : ℕ) (_hn : 1 ≤ n) (hnm : n < m)
    (_ht : t < m) (hlast : t ≠ m - 1) :
    range_end t m n < range_start t m n ∧ local_sum f t m n = 0 ∧
    compute f m n = ∑ i in Finset.Icc 1 n, f i := by
  have hq : n / m = 0 := Nat.div_eq_of_lt hnm
  have hse : range_end t m n < range_start t m n := by
    rw [range_start, range_end, if_neg hlast, hq]
    omega
  refine ⟨hse, ?_, compute_eq_sum f m n (by omega)⟩
  rw [local_sum, workerRange, Finset.Icc_eq_empty (not_le.mpr hse)]
  exact Finset.sum_empty

theorem c6_witness :
    (1 ≤ 3) ∧ (3 < 5) ∧ (1 < 5) ∧ ((1 : ℕ) ≠ 5 - 1) ∧
    (range_end 1 5 3 < range_start 1 5 3 ∧ local_sum (fun i => (i : ℚ)) 1 5 3 = 0 ∧
      compute (fun i => (i : ℚ)) 5 3 = ∑ i in Finset.Icc (1 : ℕ) 3, (i : ℚ)) :=
  ⟨by decide, by decide, by decide, by decide,
    c6_empty_ranges_safe (fun i => (i : ℚ)) 5 3 1 (by decide) (by decide) (by decide) (by decide)⟩

/-- Claim C7: within one reduction round with step s, distinct active
workers touch pairwise disjoint slot pairs (own write target and
partner's read slot), and no write target is ever a read slot. -/
theorem c7_no_slot_contention (m s t1 t2 : ℕ) (hs : 1 ≤ s) (h1 : t1 ∈ writeSet m s)
    (h2 : t2 ∈ writeSet m s) (hne : t1 ≠ t2) :
    Disjoint (writeSet m s) (readSet m s) ∧
    t1 + s ≠ t2 + s ∧ t1 ≠ t2 + s ∧ t1 + s ≠ t2 ∧
    ({t1, t1 + s} : Finset ℕ) ∩ {t2, t2 + s} = ∅ := by
  have hm1 : t1 % (2 * s) = 0 := ((mem_writeSet_iff m s t1).mp h1).1
  have hm2 : t2 % (2 * s) = 0 := ((mem_writeSet_iff m s t2).mp h2).1
  have hr1 : (t1 + s) % (2 * s) = s := mod_add_s s t1 hs hm1
  have hr2 : (t2 + s) % (2 * s) = s := mod_add_s s t2 hs hm2
  have hne1 : t1 + s ≠ t2 + s := by omega
  have hne2 : t1 ≠ t2 + s := fun he => by rw [he] at hm1; omega
  have hne3 : t1 + s ≠ t2 := fun he => by rw [he] at hr1; omega
  refine ⟨writeSet_readSet_disjoint m s hs, hne1, hne2, hne3, ?_⟩
  rw [Finset.eq_empty_iff_forall_not_mem]
  intro x hx
  rw [Finset.mem_inter, Finset.mem_insert, Finset.mem_singleton,
    Finset.mem_insert, Finset.mem_singleton] at hx
  rcases hx with ⟨hx1 | hx1, hx2 | hx2⟩ <;> omega

theorem c7_witness :
    (1 ≤ 2) ∧ (0 ∈ writeSet 8 2) ∧ (4 ∈ writeSet 8 2) ∧ ((0 : ℕ) ≠ 4) ∧
    (Disjoint (writeSet 8 2) (readSet 8 2) ∧
      (0 : ℕ) + 2 ≠ 4 + 2 ∧ (0 : ℕ) ≠ 4 + 2 ∧ (0 : ℕ) + 2 ≠ 4 ∧
      ({0, 0 + 2} : Finset ℕ) ∩ {4, 4 + 2} = ∅) :=
  ⟨by decide, by decide, by decide, by decide,
    c7_no_slot_contention 8 2 0 4 (by decide) (by decide) (by decide) (by decide)⟩

/-- Claim C8: the reduction loop (step = 1, doubling while step < m)
terminates; it performs exactly ceil(log2 m) = Nat.clog 2 m rounds (the
count is independent of any fuel of at least m iterations), zero rounds
when m = 1, and performs no round once step ≥ m. -/
theorem c8_loop_terminates_after_clog_rounds (m fuel s : ℕ) (_hm : 1 ≤ m) (hfuel : m ≤ fuel)
    (hs : m ≤ s) :
    loopRounds m = Nat.clog 2 m ∧ loopRoundsAux m fuel 1 = Nat.clog 2 m ∧
    loopRoundsAux m fuel s = 0 ∧ (m = 1 → loopRounds m = 0) := by
  refine ⟨loopRounds_eq_clog m, ?_, loopRoundsAux_stop m fuel s hs, ?_⟩
  · have h := loopRoundsAux_spec m fuel 0 (by have := clog_two_le_self m; omega)
    rw [pow_zero] at h
    rw [max_eq_right (Nat.zero_le _)] at h
    simpa using h
  · intro h1
    rw [h1]
    rfl

theorem c8_witness :
    (1 ≤ 5) ∧ (5 ≤ 9) ∧ (5 ≤ 6) ∧
    (loopRounds 5 = Nat.clog 2 5 ∧ loopRoundsAux 5 9 1 = Nat.clog 2 5 ∧
      loopRoundsAux 5 9 6 = 0 ∧ (5 = 1 → loopRounds 5 = 0)) ∧
    loopRounds 5 = 3 :=
  ⟨by decide, by decide, by decide,
    c8_loop_terminates_after_clog_rounds 5 9 6 (by decide) (by decide) (by decide), rfl⟩

/-- Claim C9: with a single worker the assigned range is exactly [1, n],
the reduction loop performs zero rounds, and the result is the direct
sequential sum over [1, n]. -/
theorem c9_single_worker_degenerate (f : ℕ → ℚ) (n : ℕ) (_hn : 1 ≤ n) :
    range_start 0 1 n = 1 ∧ range_end 0 1 n = n ∧ loopRounds 1 = 0 ∧
    compute f 1 n = local_sum f 0 1 n ∧ compute f 1 n = ∑ i in Finset.Icc 1 n, f i := by
  refine ⟨by rw [range_start]; ring, by rw [range_end, if_pos rfl], rfl, rfl, ?_⟩
  exact compute_eq_sum f 1 n (by norm_num)

theorem c9_witness :
    (1 ≤ 4) ∧
    (range_start 0 1 4 = 1 ∧ range_end 0 1 4 = 4 ∧ loopRounds 1 = 0 ∧
      compute (fun i => (i : ℚ)) 1 4 = local_sum (fun i => (i : ℚ)) 0 1 4 ∧
      compute (fun i => (i : ℚ)) 1 4 = ∑ i in Finset.Icc (1 : ℕ) 4, (i : ℚ)) :=
  ⟨by decide, c9_single_worker_degenerate (fun i => (i : ℚ)) 4 (by decide)⟩

/-- Claim C10: frame property of a reduction round: a slot j is modified
only if j mod (2*s) = 0 and j + s < m; every other slot holds exactly
the same value after the round as before it. -/
theorem c10_round_frame (m s j : ℕ) (σ : ℕ → ℚ) (h : ¬(j % (2 * s) = 0 ∧ j + s < m)) :
    roundExec m s σ j = σ j := by
  rw [roundExec_eq, if_neg h]

theorem c10_witness :
    ¬((1 : ℕ) % (2 * 1) = 0 ∧ 1 + 1 < 4) ∧
    roundExec 4 1 (fun t => (t : ℚ)) 1 = (fun t => (t : ℚ)) 1 :=
  ⟨by decide, c10_round_frame 4 1 1 (fun t => (t : ℚ)) (by decide)⟩
